import Mathlib

set_option maxHeartbeats 1000000

/-!
Shallow embedding of the lpil-modules TextMate-grammar tooling: the grammar
store and reachability pruner (`Grammars` in grammars.mjs / the unnamed
grammars module), the base-scope selector, the trace/dispatch loop
(`traceParseOf`), the structure store (`Structures` in runner.ts), the
document cache (documents.ts) and the three-phase runner (`runTMGTool`).

JavaScript objects used as string-keyed maps are modelled as association
lists in insertion order (`JsObj`); JavaScript `Map` values are modelled by
`JSMap`, which separates the map's internal entries from the object's own
enumerable properties (what `Object.keys` sees).  Recursive, possibly
non-terminating procedures are modelled with an explicit fuel argument:
`none` means the computation did not finish within the given recursion
depth, so `∀ fuel, f fuel x = none` exhibits divergence.
-/

/-- JavaScript-style string-keyed object: an association list in insertion
order (later `oset`s of a fresh key append, of an existing key update in
place). -/
abbrev JsObj (α : Type) : Type := List (String × α)

/-- Property lookup (`obj[key]`): `none` models `undefined`. -/
def oget {α : Type} : JsObj α → String → Option α
  | [], _ => none
  | (k, v) :: rest, key => if k = key then some v else oget rest key

/-- Property assignment (`obj[key] = val`), keeping insertion order. -/
def oset {α : Type} : JsObj α → String → α → JsObj α
  | [], key, val => [(key, val)]
  | (k, v) :: rest, key, val =>
    if k = key then (k, val) :: rest else (k, v) :: oset rest key val

/-- JavaScript truthiness of `obj[key]` for a Boolean-valued object:
`undefined` and `false` are falsy. -/
def truthy (m : JsObj Bool) (key : String) : Bool :=
  match oget m key with
  | some b => b
  | none => false

/-- `aString.startsWith(c)` for a one-character prefix, modelled at the
character level. -/
def jsStartsWithChar (s : String) (c : Char) : Bool :=
  match s.data with
  | [] => false
  | c0 :: _ => c0 == c

/-- `aString.slice(1)`: drop the first character. -/
def jsDropOne (s : String) : String := String.mk (s.data.drop 1)

/-- `aString.endsWith(pat)`, modelled at the character level. -/
def jsEndsWith (s pat : String) : Bool := pat.data.isSuffixOf s.data

/-- A TextMate rule/grammar node, as parsed from grammar JSON.  A grammar
file is itself just such a node (with `scopeName`, `fileTypes`,
`firstLineMatch` at top level); `include` is rendered as `includeRef`
because `include` is a Lean keyword. -/
inductive Rule : Type where
  | mk (name contentName scopeName includeRef firstLineMatch : Option String)
       (fileTypes : Option (List String))
       (patterns : Option (List Rule))
       (repository captures beginCaptures endCaptures : Option (List (String × Rule)))

def Rule.name : Rule → Option String
  | .mk v _ _ _ _ _ _ _ _ _ _ => v

def Rule.contentName : Rule → Option String
  | .mk _ v _ _ _ _ _ _ _ _ _ => v

def Rule.scopeName : Rule → Option String
  | .mk _ _ v _ _ _ _ _ _ _ _ => v

def Rule.includeRef : Rule → Option String
  | .mk _ _ _ v _ _ _ _ _ _ _ => v

def Rule.firstLineMatch : Rule → Option String
  | .mk _ _ _ _ v _ _ _ _ _ _ => v

def Rule.fileTypes : Rule → Option (List String)
  | .mk _ _ _ _ _ v _ _ _ _ _ => v

def Rule.patterns : Rule → Option (List Rule)
  | .mk _ _ _ _ _ _ v _ _ _ _ => v

def Rule.repository : Rule → Option (JsObj Rule)
  | .mk _ _ _ _ _ _ _ v _ _ _ => v

def Rule.captures : Rule → Option (JsObj Rule)
  | .mk _ _ _ _ _ _ _ _ v _ _ => v

def Rule.beginCaptures : Rule → Option (JsObj Rule)
  | .mk _ _ _ _ _ _ _ _ _ v _ => v

def Rule.endCaptures : Rule → Option (JsObj Rule)
  | .mk _ _ _ _ _ _ _ _ _ _ v => v

/-- In-place mutation of a rule's `patterns` array (JS aliasing rendered as
functional update). -/
def Rule.setPatterns : Rule → Option (List Rule) → Rule
  | .mk n c s i f ft _ r cp bc ec, p => .mk n c s i f ft p r cp bc ec

/-- In-place mutation of a grammar's `repository` object. -/
def Rule.setRepository : Rule → Option (JsObj Rule) → Rule
  | .mk n c s i f ft p _ cp bc ec, r => .mk n c s i f ft p r cp bc ec

/-- `deepcopy(aGrammar)`: on pure values a deep copy is the identity;
aliasing is modelled by explicit state threading instead. -/
def deepcopy (g : Rule) : Rule := g

/-- The mutable state shared by the nested functions of `pruneGrammars`:
the keep-set `scopes2keep`, the memo set `knownBaseScopes`, and the working
grammar map `s2g` (mutated in place by the pruner). -/
structure GState where
  scopes2keep     : JsObj Bool
  knownBaseScopes : List String
  s2g             : JsObj Rule

/-- `keepScope` from `pruneGrammars`: a scope is kept iff it is truthy in
the keep-set (an absent or empty scope name is falsy). -/
def keepScope (scopes2keep : JsObj Bool) (aScope : Option String) : Bool :=
  match aScope with
  | none => false
  | some s => if s = "" then false else truthy scopes2keep s

/-- `keepCapture` from `pruneGrammars`: a capture map is kept iff some
capture's `name` is truthy in the keep-set. -/
def keepCapture (scopes2keep : JsObj Bool) (someCaptures : Option (JsObj Rule)) : Bool :=
  match someCaptures with
  | none => false
  | some caps =>
    caps.any (fun kv =>
      match kv.2.name with
      | some nm => truthy scopes2keep nm
      | none => false)

mutual

/-- `keepPatterns(somePatterns, patterns2keep, gRepo)`: evaluates every
member with `keepRule`, deletes (by reverse-index splice, i.e. filtering)
the members that are not kept, and reports whether any member survives.
Returns the updated pattern list alongside the threaded mutable state. -/
def keepPatterns (fuel : Nat) (somePatterns : Option (List Rule)) (p2k : JsObj Bool)
    (gRepo : JsObj Rule) (gs : GState) :
    Option (Bool × Option (List Rule) × JsObj Bool × JsObj Rule × GState) :=
  match somePatterns with
  | none => some (false, none, p2k, gRepo, gs)
  | some pats =>
    match fuel with
    | 0 => none
    | n + 1 =>
      Option.bind (keepPatternsList n pats p2k gRepo gs)
        (fun (survivors, p2k', gRepo', gs') =>
          some (decide (0 < survivors.length), some survivors, p2k', gRepo', gs'))
termination_by structural fuel

/-- The iteration of `keepPatterns` over the members of a pattern list,
returning the surviving (possibly mutated) members in order. -/
def keepPatternsList (fuel : Nat) (pats : List Rule) (p2k : JsObj Bool)
    (gRepo : JsObj Rule) (gs : GState) :
    Option (List Rule × JsObj Bool × JsObj Rule × GState) :=
  match pats with
  | [] => some ([], p2k, gRepo, gs)
  | aPattern :: rest =>
    match fuel with
    | 0 => none
    | n + 1 =>
      Option.bind (keepRule n aPattern p2k gRepo gs)
        (fun (b, r', p2k', gRepo', gs') =>
          Option.bind (keepPatternsList n rest p2k' gRepo' gs')
            (fun (rest', p2k'', gRepo'', gs'') =>
              some ((if b then r' :: rest' else rest'), p2k'', gRepo'', gs'')))
termination_by structural fuel

/-- `keepRule(aRule, patterns2keep, gRepo)`: a rule is kept iff its
name/contentName/captures are kept, or some nested pattern is kept, or its
`include` resolves to something kept (in which case the include key is
recorded in `patterns2keep`).  Returns the (possibly mutated) rule. -/
def keepRule (fuel : Nat) (aRule : Rule) (p2k : JsObj Bool)
    (gRepo : JsObj Rule) (gs : GState) :
    Option (Bool × Rule × JsObj Bool × JsObj Rule × GState) :=
  if keepScope gs.scopes2keep aRule.name then some (true, aRule, p2k, gRepo, gs)
  else if keepScope gs.scopes2keep aRule.contentName then some (true, aRule, p2k, gRepo, gs)
  else if keepCapture gs.scopes2keep aRule.captures then some (true, aRule, p2k, gRepo, gs)
  else if keepCapture gs.scopes2keep aRule.beginCaptures then some (true, aRule, p2k, gRepo, gs)
  else if keepCapture gs.scopes2keep aRule.endCaptures then some (true, aRule, p2k, gRepo, gs)
  else
    match fuel with
    | 0 => none
    | n + 1 =>
      Option.bind (keepPatterns n aRule.patterns p2k gRepo gs)
        (fun (bp, pats', p2k', gRepo', gs') =>
          let aRule' := aRule.setPatterns pats'
          if bp then some (true, aRule', p2k', gRepo', gs')
          else
            Option.bind (keepInclude n aRule'.includeRef p2k' gRepo' gs')
              (fun (bi, p2k'', gRepo'', gs'') =>
                if bi then
                  some (true, aRule',
                    (match aRule'.includeRef with
                     | some inc => oset p2k'' inc true
                     | none => p2k''),
                    gRepo'', gs'')
                else some (false, aRule', p2k'', gRepo'', gs'')))
termination_by structural fuel

/-- `keepInclude(anInclude, patterns2keep, gRepo)`: `$self`/`$base` is
conservatively dropped; a `#local` include is kept if already recorded or
if the referenced repository rule is kept; a foreign scope include is kept
if the scope is in the keep-set or the foreign grammar is kept. -/
def keepInclude (fuel : Nat) (anInclude : Option String) (p2k : JsObj Bool)
    (gRepo : JsObj Rule) (gs : GState) :
    Option (Bool × JsObj Bool × JsObj Rule × GState) :=
  match anInclude with
  | none => some (false, p2k, gRepo, gs)
  | some inc =>
    if inc = "" then some (false, p2k, gRepo, gs)
    else if jsStartsWithChar inc '$' then some (false, p2k, gRepo, gs)
    else if jsStartsWithChar inc '#' then
      if truthy p2k inc then some (true, p2k, gRepo, gs)
      else
        match oget gRepo (jsDropOne inc) with
        | none => some (false, p2k, gRepo, gs)
        | some r =>
          match fuel with
          | 0 => none
          | n + 1 =>
            Option.bind (keepRule n r p2k gRepo gs)
              (fun (b, r', p2k', gRepo', gs') =>
                some (b, p2k', oset gRepo' (jsDropOne inc) r', gs'))
    else if truthy gs.scopes2keep inc then some (true, p2k, gRepo, gs)
    else
      match oget gs.s2g inc with
      | none => some (false, p2k, gRepo, gs)
      | some g =>
        match fuel with
        | 0 => none
        | n + 1 =>
          Option.bind (keepGrammar n inc g gs)
            (fun (b, gs') => some (b, p2k, gRepo, gs'))
termination_by structural fuel

/-- `keepGrammar(aBaseScope, aGrammar)`: memoized per base scope via
`knownBaseScopes`; a base scope in the keep-set is kept outright; a grammar
with no `patterns` member is dropped; otherwise the root pattern list is
pruned, repository entries never marked in `patterns2keep` are deleted, and
the verdict is recorded in the keep-set. -/
def keepGrammar (fuel : Nat) (aBaseScope : String) (aGrammar : Rule) (gs : GState) :
    Option (Bool × GState) :=
  if aBaseScope ∈ gs.knownBaseScopes then some (truthy gs.scopes2keep aBaseScope, gs)
  else
    let gs0 : GState := ⟨gs.scopes2keep, aBaseScope :: gs.knownBaseScopes, gs.s2g⟩
    if truthy gs0.scopes2keep aBaseScope then some (true, gs0)
    else
      match aGrammar.patterns with
      | none => some (false, gs0)
      | some _ =>
        match fuel with
        | 0 => none
        | n + 1 =>
          Option.bind (keepPatterns n aGrammar.patterns [] (aGrammar.repository.getD []) gs0)
            (fun (keepThePatterns, pats', p2k', gRepo', gs1) =>
              let gRepo2 := gRepo'.filter (fun kv => truthy p2k' ("#" ++ kv.1))
              let aGrammar' :=
                (aGrammar.setPatterns pats').setRepository
                  (aGrammar.repository.map (fun _ => gRepo2))
              some (keepThePatterns,
                ⟨oset gs1.scopes2keep aBaseScope keepThePatterns,
                 gs1.knownBaseScopes,
                 oset gs1.s2g aBaseScope aGrammar'⟩))
termination_by structural fuel

end

/-- The final loop of `pruneGrammars`: `keepGrammar` on every working
grammar, threading the shared state. -/
def pruneLoop (fuel : Nat) (keys : List String) (gs : GState) : Option GState :=
  match keys with
  | [] => some gs
  | k :: rest =>
    match oget gs.s2g k with
    | none => pruneLoop fuel rest gs
    | some g =>
      Option.bind (keepGrammar fuel k g gs)
        (fun res => pruneLoop fuel rest res.2)

/-- `pruneGrammars(scopes2keep)`: rebuilds the working map as a deep copy
of the originals, then marks/prunes every grammar.  Returns the final
working map (`none`: the recursion did not finish within `fuel`). -/
def pruneGrammars (fuel : Nat) (scopes2keep : JsObj Bool) (originals : JsObj Rule) :
    Option (JsObj Rule) :=
  let s2g : JsObj Rule := originals.map (fun kv => (kv.1, deepcopy kv.2))
  Option.bind (pruneLoop fuel (s2g.map (fun kv => kv.1)) ⟨scopes2keep, [], s2g⟩)
    (fun gs' => some gs'.s2g)

/-! ### A grammar with a cyclic chain of local includes

`#a` includes `#b` and `#b` includes `#a`, the root pattern list includes
`#a`, and neither scope is in the keep-set.  This is the configuration of
the spec's "termination under cycles" property. -/

/-- A rule whose only member is an `include` reference. -/
def includeOnlyRule (inc : String) : Rule :=
  .mk none none none (some inc) none none none none none none none

/-- Repository with the two mutually-including local rules. -/
def cyclicRepository : JsObj Rule :=
  [("a", includeOnlyRule "#b"), ("b", includeOnlyRule "#a")]

/-- The grammar whose repository contains the `#a`/`#b` include cycle,
reachable from the root pattern list. -/
def cyclicGrammar : Rule :=
  .mk none none (some "source.cyclic") none none none
    (some [includeOnlyRule "#a"]) (some cyclicRepository) none none none

/-- The original grammar store holding only the cyclic grammar. -/
def cyclicStore : JsObj Rule := [("source.cyclic", cyclicGrammar)]

/-- The pruner state at the moment `keepGrammar` starts walking the cyclic
grammar's root patterns (empty keep-set, base scope already memoized). -/
def cyclicGS : GState := ⟨[], ["source.cyclic"], cyclicStore⟩

theorem keepRule_cyclic_step_a (j : Nat) :
    keepRule (j + 2) (includeOnlyRule "#a") [] cyclicRepository cyclicGS =
      Option.bind (Option.bind (keepRule j (includeOnlyRule "#b") [] cyclicRepository cyclicGS)
        (fun (b, r', p2k', gRepo', gs') => some (b, p2k', oset gRepo' "a" r', gs')))
        (fun (bi, p2k'', gRepo'', gs'') =>
          if bi then some (true, includeOnlyRule "#a", oset p2k'' "#a" true, gRepo'', gs'')
          else some (false, includeOnlyRule "#a", p2k'', gRepo'', gs'')) := rfl

theorem keepRule_cyclic_step_b (j : Nat) :
    keepRule (j + 2) (includeOnlyRule "#b") [] cyclicRepository cyclicGS =
      Option.bind (Option.bind (keepRule j (includeOnlyRule "#a") [] cyclicRepository cyclicGS)
        (fun (b, r', p2k', gRepo', gs') => some (b, p2k', oset gRepo' "b" r', gs')))
        (fun (bi, p2k'', gRepo'', gs'') =>
          if bi then some (true, includeOnlyRule "#b", oset p2k'' "#b" true, gRepo'', gs'')
          else some (false, includeOnlyRule "#b", p2k'', gRepo'', gs'')) := rfl

/-- The `#a`/`#b` evaluation cycle never finishes, at any recursion
depth: `keepRule` on either rule exhausts every fuel value. -/
theorem keepRule_cyclic_none : ∀ n : Nat,
    keepRule n (includeOnlyRule "#a") [] cyclicRepository cyclicGS = none ∧
    keepRule n (includeOnlyRule "#b") [] cyclicRepository cyclicGS = none := by
  intro n
  induction n using Nat.strong_induction_on with
  | _ n ih =>
    match n with
    | 0 => exact ⟨rfl, rfl⟩
    | 1 => exact ⟨rfl, rfl⟩
    | j + 2 =>
      obtain ⟨hja, hjb⟩ := ih j (by omega)
      refine ⟨?_, ?_⟩
      · rw [keepRule_cyclic_step_a, hjb]
        rfl
      · rw [keepRule_cyclic_step_b, hja]
        rfl

theorem keepPatternsList_cyclic_none : ∀ n : Nat,
    keepPatternsList n [includeOnlyRule "#a"] [] cyclicRepository cyclicGS = none := by
  intro n
  match n with
  | 0 => rfl
  | j + 1 =>
    have h :
        keepPatternsList (j + 1) [includeOnlyRule "#a"] [] cyclicRepository cyclicGS =
          Option.bind (keepRule j (includeOnlyRule "#a") [] cyclicRepository cyclicGS)
            (fun (b, r', p2k', gRepo', gs') =>
              Option.bind (keepPatternsList j [] p2k' gRepo' gs')
                (fun (rest', p2k'', gRepo'', gs'') =>
                  some ((if b then r' :: rest' else rest'), p2k'', gRepo'', gs''))) := rfl
    rw [h, (keepRule_cyclic_none j).1]
    rfl

theorem keepPatterns_cyclic_none : ∀ n : Nat,
    keepPatterns n (some [includeOnlyRule "#a"]) [] cyclicRepository cyclicGS = none := by
  intro n
  match n with
  | 0 => rfl
  | j + 1 =>
    have h :
        keepPatterns (j + 1) (some [includeOnlyRule "#a"]) [] cyclicRepository cyclicGS =
          Option.bind (keepPatternsList j [includeOnlyRule "#a"] [] cyclicRepository cyclicGS)
            (fun (survivors, p2k', gRepo', gs') =>
              some (decide (0 < survivors.length), some survivors, p2k', gRepo', gs')) := rfl
    rw [h, keepPatternsList_cyclic_none j]
    rfl

theorem keepGrammar_cyclic_none : ∀ n : Nat,
    keepGrammar n "source.cyclic" cyclicGrammar ⟨[], [], cyclicStore⟩ = none := by
  intro n
  match n with
  | 0 => rfl
  | j + 1 =>
    have h :
        keepGrammar (j + 1) "source.cyclic" cyclicGrammar ⟨[], [], cyclicStore⟩ =
          Option.bind (keepPatterns j (some [includeOnlyRule "#a"]) [] cyclicRepository cyclicGS)
            (fun (keepThePatterns, pats', p2k', gRepo', gs1) =>
              let gRepo2 := gRepo'.filter (fun kv => truthy p2k' ("#" ++ kv.1))
              let aGrammar' :=
                (cyclicGrammar.setPatterns pats').setRepository
                  (cyclicGrammar.repository.map (fun _ => gRepo2))
              some (keepThePatterns,
                ⟨oset gs1.scopes2keep "source.cyclic" keepThePatterns,
                 gs1.knownBaseScopes,
                 oset gs1.s2g "source.cyclic" aGrammar'⟩)) := rfl
    rw [h, keepPatterns_cyclic_none j]
    rfl

/-- C1.  The spec claims `pruneGrammars` terminates on a repository whose
local includes form a cycle (`#a` includes `#b`, `#b` includes `#a`,
neither scope kept) and prunes it to an empty repository.  The code has no
memoization for local `#`-includes (`knownBaseScopes` only guards whole
grammars, and `patterns2keep` records only positive verdicts), so on this
input `keepInclude`/`keepRule` recurse forever: the modelled computation
exhausts every recursion-depth budget instead of producing a result. -/
theorem spec_pruneGrammars_cyclic_local_includes_diverges :
    ∀ fuel : Nat, pruneGrammars fuel [] cyclicStore = none := by
  intro fuel
  have h :
      pruneGrammars fuel [] cyclicStore =
        Option.bind
          (Option.bind (keepGrammar fuel "source.cyclic" cyclicGrammar ⟨[], [], cyclicStore⟩)
            (fun res => pruneLoop fuel [] res.2))
          (fun gs' => some gs'.s2g) := rfl
  rw [h, keepGrammar_cyclic_none fuel]
  rfl

/-! ### keepGrammar on a grammar without patterns -/

/-- A grammar with a scope name but no `patterns` member at all. -/
def noPatternsGrammar : Rule :=
  .mk none none (some "source.nopat") none none none none none none none none

/-- Counterexample to C2: with `source.nopat` in the keep-set, `keepGrammar`
returns `true` for the pattern-less grammar (the keep-set check precedes
the missing-patterns check), where the claim says it returns `false`. -/
theorem spec_keepGrammar_nopatterns_counterexample :
    keepGrammar 0 "source.nopat" noPatternsGrammar ⟨[("source.nopat", true)], [], []⟩ =
      some (true, ⟨[("source.nopat", true)], ["source.nopat"], []⟩) := rfl

/-- C2 (amended).  `keepGrammar` consults the keep-set before looking at
the pattern list: for a not-yet-visited base scope that is truthy in the
keep-set it returns `true` regardless of patterns; only when the base scope
is not kept does a grammar with no pattern list get dropped (`false`). -/
theorem spec_keepGrammar_nopatterns_amended :
    (∀ (fuel : Nat) (scope : String) (g : Rule) (gs : GState),
       scope ∉ gs.knownBaseScopes → truthy gs.scopes2keep scope = true →
       keepGrammar fuel scope g gs =
         some (true, ⟨gs.scopes2keep, scope :: gs.knownBaseScopes, gs.s2g⟩)) ∧
    (∀ (fuel : Nat) (scope : String) (g : Rule) (gs : GState),
       scope ∉ gs.knownBaseScopes → truthy gs.scopes2keep scope = false →
       g.patterns = none →
       keepGrammar fuel scope g gs =
         some (false, ⟨gs.scopes2keep, scope :: gs.knownBaseScopes, gs.s2g⟩)) := by
  constructor
  · intro fuel scope g gs h1 h2
    unfold keepGrammar
    simp [h1, h2]
  · intro fuel scope g gs h1 h2 h3
    unfold keepGrammar
    simp [h1, h2, h3]

/-- Witness for C2's amended theorem at concrete inputs. -/
theorem spec_keepGrammar_nopatterns_amended_witness :
    keepGrammar 3 "source.nopat" noPatternsGrammar ⟨[("source.nopat", true)], [], []⟩ =
      some (true, ⟨[("source.nopat", true)], ["source.nopat"], []⟩) ∧
    keepGrammar 3 "source.other" noPatternsGrammar ⟨[], [], []⟩ =
      some (false, ⟨[], ["source.other"], []⟩) :=
  ⟨spec_keepGrammar_nopatterns_amended.1 3 "source.nopat" noPatternsGrammar
      ⟨[("source.nopat", true)], [], []⟩ (by simp) (by decide),
   spec_keepGrammar_nopatterns_amended.2 3 "source.other" noPatternsGrammar
      ⟨[], [], []⟩ (by simp) (by decide) rfl⟩

/-! ### getKnownScopes -/

/-- The scope names contributed by one optional literal field. -/
def optScopeNames (v : Option String) : List String :=
  match v with
  | some s => [s]
  | none => []

mutual

/-- `addScopesFromRule`: collect every literal `name`, `scopeName` and
`contentName`, recursing into patterns, repository and all three capture
maps. -/
def addScopesFromRule : Rule → List String
  | .mk name contentName scopeName _ _ _ patterns repository captures beginCaptures endCaptures =>
    optScopeNames name ++ optScopeNames scopeName ++ optScopeNames contentName ++
    addScopesFromPatterns patterns ++ addScopesFromRepository repository ++
    addScopesFromCaptures captures ++ addScopesFromCaptures beginCaptures ++
    addScopesFromCaptures endCaptures

/-- `addScopesFromPatterns`: recurse into every member of a pattern list. -/
def addScopesFromPatterns : Option (List Rule) → List String
  | none => []
  | some rs => addScopesFromRuleList rs

def addScopesFromRuleList : List Rule → List String
  | [] => []
  | r :: rest => addScopesFromRule r ++ addScopesFromRuleList rest

/-- `addScopesFromRepository`: recurse into every repository entry. -/
def addScopesFromRepository : Option (List (String × Rule)) → List String
  | none => []
  | some prs => addScopesFromPairList prs

def addScopesFromPairList : List (String × Rule) → List String
  | [] => []
  | (_, r) :: rest => addScopesFromRule r ++ addScopesFromPairList rest

/-- `addScopesFromCaptures`: recurse into every capture entry. -/
def addScopesFromCaptures : Option (List (String × Rule)) → List String
  | none => []
  | some prs => addScopesFromPairList prs

end

/-- Record a list of scope names in the `knownScopes` object. -/
def osetTrue (m : JsObj Bool) (keys : List String) : JsObj Bool :=
  keys.foldl (fun acc k => oset acc k true) m

/-- Insertion into a lexicographically sorted list (JS `Array.sort`). -/
def insertSorted (s : String) : List String → List String
  | [] => [s]
  | t :: rest => if s ≤ t then s :: t :: rest else t :: insertSorted s rest

/-- JS `Object.keys(x).sort()`'s sorting step. -/
def sortStrings : List String → List String
  | [] => []
  | s :: rest => insertSorted s (sortStrings rest)

/-- `getKnownScopes()`: walk every working grammar, recording its base
scope and every scope mentioned in its patterns and repository, then return
the deduplicated keys sorted. -/
def getKnownScopes (s2g : JsObj Rule) : List String :=
  let knownScopes : JsObj Bool :=
    s2g.foldl
      (fun acc kv =>
        osetTrue acc
          (kv.1 :: (addScopesFromPatterns kv.2.patterns ++ addScopesFromRepository kv.2.repository)))
      []
  sortStrings (knownScopes.map (fun kv => kv.1))

/-- The keep-set handed to `pruneGrammars`, built from a list of scope
names (every entry truthy). -/
def mkKeepSet (scopes : List String) : JsObj Bool :=
  scopes.map (fun s => (s, true))

theorem mem_insertSorted (x s : String) (l : List String) :
    x ∈ insertSorted s l ↔ x = s ∨ x ∈ l := by
  induction l with
  | nil => simp [insertSorted]
  | cons t rest ih =>
    by_cases h : s ≤ t
    · simp [insertSorted, h]
    · simp [insertSorted, h, ih]
      tauto

theorem mem_sortStrings (x : String) (l : List String) :
    x ∈ sortStrings l ↔ x ∈ l := by
  induction l with
  | nil => simp [sortStrings]
  | cons s rest ih => simp [sortStrings, mem_insertSorted, ih]

theorem truthy_mkKeepSet (k : String) (l : List String) :
    k ∈ l → truthy (mkKeepSet l) k = true := by
  induction l with
  | nil => intro h; simp at h
  | cons s rest ih =>
    intro h
    by_cases hs : s = k
    · simp [mkKeepSet, truthy, oget, hs]
    · have h' : k ∈ rest := by
        rcases List.mem_cons.mp h with h0 | h0
        · exact absurd h0.symm hs
        · exact h0
      simpa [mkKeepSet, truthy, oget, hs] using ih h'

theorem mem_keys_oset {α : Type} (m : JsObj α) (k k' : String) (v : α) :
    k' ∈ (oset m k v).map Prod.fst ↔ k' = k ∨ k' ∈ m.map Prod.fst := by
  induction m with
  | nil => simp [oset]
  | cons kv rest ih =>
    obtain ⟨k0, v0⟩ := kv
    by_cases h : k0 = k
    · subst h
      simp [oset]
    · simp only [oset, if_neg h, List.map_cons, List.mem_cons, ih]
      tauto

theorem mem_keys_osetTrue (m : JsObj Bool) (keys : List String) (k : String) :
    (k ∈ keys ∨ k ∈ m.map Prod.fst) → k ∈ (osetTrue m keys).map Prod.fst := by
  induction keys generalizing m with
  | nil =>
    intro h
    rcases h with h | h
    · simp at h
    · simpa [osetTrue] using h
  | cons s rest ih =>
    intro h
    show k ∈ (osetTrue (oset m s true) rest).map Prod.fst
    apply ih
    rcases h with h | h
    · rcases List.mem_cons.mp h with h | h
      · right
        rw [mem_keys_oset]
        left
        exact h
      · left
        exact h
    · right
      rw [mem_keys_oset]
      right
      exact h

theorem mem_getKnownScopes (s2g : JsObj Rule) (k : String)
    (h : k ∈ s2g.map Prod.fst) : k ∈ getKnownScopes s2g := by
  unfold getKnownScopes
  rw [mem_sortStrings]
  suffices hgen : ∀ (acc : JsObj Bool),
      (k ∈ s2g.map Prod.fst ∨ k ∈ acc.map Prod.fst) →
      k ∈ (s2g.foldl
        (fun acc kv =>
          osetTrue acc
            (kv.1 :: (addScopesFromPatterns kv.2.patterns ++ addScopesFromRepository kv.2.repository)))
        acc).map Prod.fst by
    exact hgen [] (Or.inl h)
  clear h
  induction s2g with
  | nil =>
    intro acc h
    rcases h with h | h
    · simp at h
    · simpa using h
  | cons kv rest ih =>
    intro acc h
    show k ∈ (rest.foldl _ (osetTrue acc _)).map Prod.fst
    apply ih
    rcases h with h | h
    · rw [List.map_cons] at h
      rcases List.mem_cons.mp h with h | h
      · right
        apply mem_keys_osetTrue
        left
        simp [h]
      · left
        exact h
    · right
      apply mem_keys_osetTrue
      right
      exact h

/-- `keepGrammar` on a base scope that is truthy in the keep-set returns
`true` and leaves the keep-set and the working map untouched (only the memo
set may grow). -/
theorem keepGrammar_truthy_keepset (fuel : Nat) (k : String) (g : Rule) (gs : GState)
    (h : truthy gs.scopes2keep k = true) :
    ∃ known', keepGrammar fuel k g gs = some (true, ⟨gs.scopes2keep, known', gs.s2g⟩) := by
  by_cases hm : k ∈ gs.knownBaseScopes
  · refine ⟨gs.knownBaseScopes, ?_⟩
    unfold keepGrammar
    simp [hm, h]
  · refine ⟨k :: gs.knownBaseScopes, ?_⟩
    unfold keepGrammar
    simp [hm, h]

/-- The final loop of `pruneGrammars`, when every visited base scope is
truthy in the keep-set, changes neither the keep-set nor the working
map. -/
theorem pruneLoop_truthy_keepset (fuel : Nat) (keys : List String) (gs : GState)
    (h : ∀ k ∈ keys, truthy gs.scopes2keep k = true) :
    ∃ known', pruneLoop fuel keys gs = some ⟨gs.scopes2keep, known', gs.s2g⟩ := by
  induction keys generalizing gs with
  | nil => exact ⟨gs.knownBaseScopes, rfl⟩
  | cons k rest ih =>
    have hk : truthy gs.scopes2keep k = true := h k (by simp)
    show ∃ known',
      (match oget gs.s2g k with
       | none => pruneLoop fuel rest gs
       | some g =>
         Option.bind (keepGrammar fuel k g gs)
           (fun res => pruneLoop fuel rest res.2)) = some ⟨gs.scopes2keep, known', gs.s2g⟩
    cases hg : oget gs.s2g k with
    | none => exact ih gs (fun k' hk' => h k' (by simp [hk']))
    | some g =>
      obtain ⟨known1, hkg⟩ := keepGrammar_truthy_keepset fuel k g gs hk
      show ∃ known',
        Option.bind (keepGrammar fuel k g gs) (fun res => pruneLoop fuel rest res.2) =
          some ⟨gs.scopes2keep, known', gs.s2g⟩
      rw [hkg]
      obtain ⟨known2, hpl⟩ :=
        ih ⟨gs.scopes2keep, known1, gs.s2g⟩ (fun k' hk' => h k' (by simp [hk']))
      exact ⟨known2, hpl⟩

/-- C3.  Pruning with the full keep-set returned by `getKnownScopes` leaves
the working map equal to the fresh deep copy of the originals: every base
scope is itself a known scope, so `keepGrammar` keeps each grammar outright
and never touches its pattern list or repository. -/
theorem spec_pruneGrammars_full_keepset_identity (g : JsObj Rule) (fuel : Nat) :
    pruneGrammars fuel (mkKeepSet (getKnownScopes g)) g = some g := by
  have hmap : g.map (fun kv => (kv.1, deepcopy kv.2)) = g := by
    induction g with
    | nil => rfl
    | cons kv rest ih => simp [deepcopy, ih]
  show Option.bind
      (pruneLoop fuel ((g.map (fun kv => (kv.1, deepcopy kv.2))).map (fun kv => kv.1))
        ⟨mkKeepSet (getKnownScopes g), [], g.map (fun kv => (kv.1, deepcopy kv.2))⟩)
      (fun gs' => some gs'.s2g) = some g
  rw [hmap]
  obtain ⟨known', hpl⟩ :=
    pruneLoop_truthy_keepset fuel (g.map (fun kv => kv.1))
      ⟨mkKeepSet (getKnownScopes g), [], g⟩
      (by
        intro k hk
        apply truthy_mkKeepSet
        apply mem_getKnownScopes
        simpa using hk)
  rw [hpl]
  rfl

/-! ### chooseBaseScope -/

/-- Pass 1 of `chooseBaseScope`: scan the working grammars in registration
order and return the first base scope whose grammar has a (truthy)
`firstLineMatch` that matches the document's first line.  The regex test
`aFirstLine.match(...)` is abstracted as `rmatch pattern line`. -/
def firstLineMatchLoop (rmatch : String → String → Bool) (aFirstLine : String) :
    JsObj Rule → Option String
  | [] => none
  | (aBaseScope, aGrammar) :: rest =>
    match aGrammar.firstLineMatch with
    | some re =>
      if re = "" then firstLineMatchLoop rmatch aFirstLine rest
      else if rmatch re aFirstLine then some aBaseScope
      else firstLineMatchLoop rmatch aFirstLine rest
    | none => firstLineMatchLoop rmatch aFirstLine rest

/-- Pass 2 of `chooseBaseScope`: return the first base scope one of whose
`fileTypes` entries is a suffix of the document path. -/
def fileTypesLoop (aDocPath : String) : JsObj Rule → Option String
  | [] => none
  | (aBaseScope, aGrammar) :: rest =>
    match aGrammar.fileTypes with
    | some fts =>
      if fts.any (fun aFileExt => jsEndsWith aDocPath aFileExt) then some aBaseScope
      else fileTypesLoop aDocPath rest
    | none => fileTypesLoop aDocPath rest

/-- `chooseBaseScope(aDocPath, aFirstLine)`: first-line matches first, then
file extensions; `none` models the fall-through `undefined` ("no match
found"). -/
def chooseBaseScope (rmatch : String → String → Bool) (s2g : JsObj Rule)
    (aDocPath aFirstLine : String) : Option String :=
  match firstLineMatchLoop rmatch aFirstLine s2g with
  | some aBaseScope => some aBaseScope
  | none => fileTypesLoop aDocPath s2g

/-- From the spec's words: "Pass 1 returns the first grammar whose
`firstLineMatch` pattern matches `firstLine`." -/
def specFirstLinePass (rmatch : String → String → Bool) (s2g : JsObj Rule)
    (aFirstLine : String) : Option String :=
  (s2g.find? (fun kv =>
    match kv.2.firstLineMatch with
    | some re => if re = "" then false else rmatch re aFirstLine
    | none => false)).map (fun kv => kv.1)

/-- From the spec's words: "Pass 2 (only if pass 1 finds nothing) returns
the first grammar whose `fileTypes` contains a suffix of `documentPath`." -/
def specFileTypesPass (s2g : JsObj Rule) (aDocPath : String) : Option String :=
  (s2g.find? (fun kv =>
    (kv.2.fileTypes.getD []).any (fun aFileExt => jsEndsWith aDocPath aFileExt))).map
    (fun kv => kv.1)

theorem firstLineMatchLoop_eq_spec (rmatch : String → String → Bool)
    (aFirstLine : String) (s2g : JsObj Rule) :
    firstLineMatchLoop rmatch aFirstLine s2g = specFirstLinePass rmatch s2g aFirstLine := by
  induction s2g with
  | nil => rfl
  | cons kv rest ih =>
    obtain ⟨aBaseScope, aGrammar⟩ := kv
    cases hm : aGrammar.firstLineMatch with
    | none => simpa [firstLineMatchLoop, specFirstLinePass, List.find?_cons, hm] using ih
    | some re =>
      by_cases hre : re = ""
      · simpa [firstLineMatchLoop, specFirstLinePass, List.find?_cons, hm, hre] using ih
      · by_cases hmt : rmatch re aFirstLine
        · simp [firstLineMatchLoop, specFirstLinePass, List.find?_cons, hm, hre, hmt]
        · simpa [firstLineMatchLoop, specFirstLinePass, List.find?_cons, hm, hre, hmt] using ih

theorem fileTypesLoop_eq_spec (aDocPath : String) (s2g : JsObj Rule) :
    fileTypesLoop aDocPath s2g = specFileTypesPass s2g aDocPath := by
  induction s2g with
  | nil => rfl
  | cons kv rest ih =>
    obtain ⟨aBaseScope, aGrammar⟩ := kv
    cases hf : aGrammar.fileTypes with
    | none => simpa [fileTypesLoop, specFileTypesPass, List.find?_cons, hf] using ih
    | some fts =>
      by_cases ha : fts.any (fun aFileExt => jsEndsWith aDocPath aFileExt)
      · simp [fileTypesLoop, specFileTypesPass, List.find?_cons, hf, ha]
      · simpa [fileTypesLoop, specFileTypesPass, List.find?_cons, hf, ha] using ih

/-- C4.  `chooseBaseScope` is the two-pass scan the spec describes: it
returns the first registration-order grammar whose `firstLineMatch`
matches the first line, and falls back to the first grammar with a
matching `fileTypes` suffix only when no first-line match exists anywhere;
in particular any first-line match takes precedence over every `fileTypes`
match, regardless of registration order. -/
theorem spec_chooseBaseScope_two_pass (rmatch : String → String → Bool)
    (s2g : JsObj Rule) (aDocPath aFirstLine : String) :
    (chooseBaseScope rmatch s2g aDocPath aFirstLine =
      (match specFirstLinePass rmatch s2g aFirstLine with
       | some aBaseScope => some aBaseScope
       | none => specFileTypesPass s2g aDocPath)) ∧
    (∀ aBaseScope, specFirstLinePass rmatch s2g aFirstLine = some aBaseScope →
      chooseBaseScope rmatch s2g aDocPath aFirstLine = some aBaseScope) := by
  constructor
  · unfold chooseBaseScope
    rw [firstLineMatchLoop_eq_spec, fileTypesLoop_eq_spec]
  · intro aBaseScope h
    unfold chooseBaseScope
    rw [firstLineMatchLoop_eq_spec, h]

/-! ### loadGrammarFrom -/

theorem oget_oset_self {α : Type} (m : JsObj α) (k : String) (v : α) :
    oget (oset m k v) k = some v := by
  induction m with
  | nil => simp [oset, oget]
  | cons kv rest ih =>
    by_cases h : kv.1 = k
    · obtain ⟨k0, v0⟩ := kv
      simp_all [oset, oget]
    · obtain ⟨k0, v0⟩ := kv
      simp_all [oset, oget]

theorem oget_oset_ne {α : Type} (m : JsObj α) (k k' : String) (v : α) (h : k ≠ k') :
    oget (oset m k v) k' = oget m k' := by
  induction m with
  | nil => simp [oset, oget, h]
  | cons kv rest ih =>
    obtain ⟨k0, v0⟩ := kv
    by_cases h0 : k0 = k
    · subst h0
      simp [oset, oget, h]
    · simp [oset, oget, h0, ih]

theorem oget_none_of_not_mem_keys {α : Type} (m : JsObj α) (k : String)
    (h : k ∉ m.map Prod.fst) : oget m k = none := by
  induction m with
  | nil => rfl
  | cons kv rest ih =>
    obtain ⟨k0, v0⟩ := kv
    rw [List.map_cons, List.mem_cons] at h
    push_neg at h
    simp only [oget, if_neg (Ne.symm h.1)]
    exact ih h.2

theorem keys_oset_of_mem {α : Type} (m : JsObj α) (k : String) (v : α)
    (h : (oget m k).isSome = true) :
    (oset m k v).map Prod.fst = m.map Prod.fst := by
  induction m with
  | nil => simp [oget] at h
  | cons kv rest ih =>
    obtain ⟨k0, v0⟩ := kv
    by_cases h0 : k0 = k
    · simp [oset, h0]
    · simp only [oget, if_neg h0] at h
      simp [oset, h0, ih h]

/-- The value each key maps to after the working-map rebuild loop
`for aScope of entries(originals): scope2grammar[aScope] = deepcopy(...)`,
provided the originals object has no duplicate keys. -/
theorem oget_rebuild_foldl (l : JsObj Rule) (w0 : JsObj Rule) (k : String)
    (hnodup : (l.map Prod.fst).Nodup) :
    oget (l.foldl (fun w kv => oset w kv.1 (deepcopy kv.2)) w0) k =
      match oget l k with
      | some v => some (deepcopy v)
      | none => oget w0 k := by
  induction l generalizing w0 with
  | nil => rfl
  | cons kv rest ih =>
    obtain ⟨k0, v0⟩ := kv
    rw [List.map_cons, List.nodup_cons] at hnodup
    show oget (rest.foldl _ (oset w0 k0 (deepcopy v0))) k = _
    rw [ih _ hnodup.2]
    by_cases h : k0 = k
    · subst h
      have hnone : oget rest k0 = none := oget_none_of_not_mem_keys rest k0 hnodup.1
      simp [oget, hnone, oget_oset_self]
    · cases hrk : oget rest k with
      | some v => simp [oget, h, hrk]
      | none => simp [oget, h, hrk, oget_oset_ne _ _ _ _ h]

/-- The static state of the `Grammars` class that `loadGrammarFrom`
reads and mutates. -/
structure GrammarsState where
  loadedGrammars        : List String
  originalScope2grammar : JsObj Rule
  scope2grammar         : JsObj Rule

/-- The log lines `loadGrammarFrom` can emit. -/
inductive LoadEvent where
  | alreadyLoadedWarning (path : String)
  | onlyJsonWarning
  | loadingDebug (path : String)
  | overwriteWarning (scope : String)
deriving DecidableEq

/-- The rebuild loop after a load: every original is deep-copied into the
working map (the working map is not cleared first). -/
def rebuildScope2grammar (st : GrammarsState) : GrammarsState :=
  ⟨st.loadedGrammars, st.originalScope2grammar,
   st.originalScope2grammar.foldl (fun w kv => oset w kv.1 (deepcopy kv.2)) st.scope2grammar⟩

/-- `loadGrammarFrom(aGrammarPath)`: only `.json` paths are loaded; a path
already in the loaded set (before or after normalization) returns
immediately; the parsed grammar (file reading and `JSON.parse` abstracted
into `parsed`) is registered under its `scopeName`, overwriting (with a
warning) any existing entry; finally the working map is rebuilt from the
originals. -/
def loadGrammarFrom (normalizePath : String → String) (aGrammarPath : String)
    (parsed : Rule) (st : GrammarsState) : List LoadEvent × GrammarsState :=
  if jsEndsWith aGrammarPath ".json" then
    if aGrammarPath ∈ st.loadedGrammars then ([.alreadyLoadedWarning aGrammarPath], st)
    else
      let aGrammarPath' := normalizePath aGrammarPath
      if aGrammarPath' ∈ st.loadedGrammars then ([.alreadyLoadedWarning aGrammarPath'], st)
      else
        let st1 : GrammarsState :=
          ⟨aGrammarPath' :: st.loadedGrammars, st.originalScope2grammar, st.scope2grammar⟩
        let aGrammar := parsed
        let step : List LoadEvent × GrammarsState :=
          match aGrammar.scopeName with
          | some baseScope =>
            if baseScope = "" then ([], st1)
            else
              ((if (oget st1.originalScope2grammar baseScope).isSome then
                  [.overwriteWarning baseScope]
                else []),
               ⟨st1.loadedGrammars, oset st1.originalScope2grammar baseScope aGrammar,
                st1.scope2grammar⟩)
          | none => ([], st1)
        (.loadingDebug aGrammarPath' :: step.1, rebuildScope2grammar step.2)
  else ([.onlyJsonWarning], st)

/-- C6.  Loading a grammar whose `scopeName` already exists overwrites the
previous original (with a warning, no error), and the working map is then
rebuilt so that every entry is a deep copy of the corresponding original —
any earlier pruning of the working map is discarded.  The two hypotheses
about the pre-state are the invariants the store maintains: originals have
no duplicate keys, and every working key is an original key. -/
theorem spec_loadGrammarFrom_overwrites_and_rebuilds
    (normalizePath : String → String) (aGrammarPath : String) (parsed : Rule)
    (st : GrammarsState) (baseScope : String)
    (hjson : jsEndsWith aGrammarPath ".json" = true)
    (hnew1 : aGrammarPath ∉ st.loadedGrammars)
    (hnew2 : normalizePath aGrammarPath ∉ st.loadedGrammars)
    (hscope : parsed.scopeName = some baseScope)
    (hne : baseScope ≠ "")
    (hdup : (oget st.originalScope2grammar baseScope).isSome = true)
    (hnodup : (st.originalScope2grammar.map Prod.fst).Nodup)
    (hsub : ∀ k, (oget st.scope2grammar k).isSome = true →
       (oget st.originalScope2grammar k).isSome = true) :
    LoadEvent.overwriteWarning baseScope ∈ (loadGrammarFrom normalizePath aGrammarPath parsed st).1 ∧
    oget (loadGrammarFrom normalizePath aGrammarPath parsed st).2.originalScope2grammar baseScope =
      some parsed ∧
    (∀ k, oget (loadGrammarFrom normalizePath aGrammarPath parsed st).2.scope2grammar k =
      (oget (loadGrammarFrom normalizePath aGrammarPath parsed st).2.originalScope2grammar k).map
        deepcopy) := by
  have hres : loadGrammarFrom normalizePath aGrammarPath parsed st =
      (.loadingDebug (normalizePath aGrammarPath) :: [.overwriteWarning baseScope],
       rebuildScope2grammar
         ⟨normalizePath aGrammarPath :: st.loadedGrammars,
          oset st.originalScope2grammar baseScope parsed, st.scope2grammar⟩) := by
    unfold loadGrammarFrom
    simp [hjson, hnew1, hnew2, hscope, hne, hdup]
  rw [hres]
  have hnodup' : ((oset st.originalScope2grammar baseScope parsed).map Prod.fst).Nodup := by
    rw [keys_oset_of_mem _ _ _ hdup]
    exact hnodup
  refine ⟨by simp, ?_, ?_⟩
  · show oget (oset st.originalScope2grammar baseScope parsed) baseScope = some parsed
    exact oget_oset_self _ _ _
  · intro k
    show oget ((oset st.originalScope2grammar baseScope parsed).foldl
        (fun w kv => oset w kv.1 (deepcopy kv.2)) st.scope2grammar) k =
      (oget (oset st.originalScope2grammar baseScope parsed) k).map deepcopy
    rw [oget_rebuild_foldl _ _ _ hnodup']
    cases hlk : oget (oset st.originalScope2grammar baseScope parsed) k with
    | some v => simp
    | none =>
      have hwk : oget st.scope2grammar k = none := by
        by_contra hne0
        have hs : (oget st.scope2grammar k).isSome = true := by
          cases hw : oget st.scope2grammar k with
          | none => exact absurd hw hne0
          | some v => rfl
        have ho := hsub k hs
        by_cases hk : baseScope = k
        · subst hk
          rw [oget_oset_self] at hlk
          exact Option.noConfusion hlk
        · rw [oget_oset_ne _ _ _ _ hk] at hlk
          rw [hlk] at ho
          simp at ho
      simp [hwk]

/-- An old and a new grammar definition sharing the scope `source.dup`. -/
def dupOldGrammar : Rule :=
  .mk (some "keyword.old") none (some "source.dup") none none none none none none none none

def dupNewGrammar : Rule :=
  .mk (some "keyword.new") none (some "source.dup") none none none none none none none none

/-- A store state that already holds `source.dup`. -/
def dupState : GrammarsState :=
  ⟨[], [("source.dup", dupOldGrammar)], [("source.dup", dupOldGrammar)]⟩

/-- Witness for C6 at a concrete duplicate load. -/
theorem spec_loadGrammarFrom_overwrites_and_rebuilds_witness :
    LoadEvent.overwriteWarning "source.dup" ∈
      (loadGrammarFrom (fun p => p) "grammar.json" dupNewGrammar dupState).1 ∧
    oget (loadGrammarFrom (fun p => p) "grammar.json" dupNewGrammar dupState).2.originalScope2grammar
      "source.dup" = some dupNewGrammar ∧
    oget (loadGrammarFrom (fun p => p) "grammar.json" dupNewGrammar dupState).2.scope2grammar
      "source.dup" =
      (oget (loadGrammarFrom (fun p => p) "grammar.json" dupNewGrammar dupState).2.originalScope2grammar
        "source.dup").map deepcopy := by
  have h := spec_loadGrammarFrom_overwrites_and_rebuilds (fun p => p) "grammar.json"
    dupNewGrammar dupState "source.dup" (by decide) (by decide) (by decide) rfl (by decide)
    rfl (by decide) (fun _ h => h)
  exact ⟨h.1, h.2.1, h.2.2 "source.dup"⟩

/-- C9.  `loadGrammarFrom` is a no-op on the grammar maps when the path was
already loaded, and likewise when the path does not end in `.json`. -/
theorem spec_loadGrammarFrom_idempotent_per_path
    (normalizePath : String → String) (aGrammarPath : String) (parsed : Rule)
    (st : GrammarsState) :
    (jsEndsWith aGrammarPath ".json" = true → aGrammarPath ∈ st.loadedGrammars →
       (loadGrammarFrom normalizePath aGrammarPath parsed st).2 = st) ∧
    (jsEndsWith aGrammarPath ".json" = false →
       (loadGrammarFrom normalizePath aGrammarPath parsed st).2 = st) := by
  constructor
  · intro hjson hmem
    unfold loadGrammarFrom
    simp [hjson, hmem]
  · intro hjson
    unfold loadGrammarFrom
    simp [hjson]

/-- Witness for C9 at concrete paths. -/
theorem spec_loadGrammarFrom_idempotent_per_path_witness :
    (loadGrammarFrom (fun p => p) "grammar.json" dupNewGrammar
       ⟨["grammar.json"], [], []⟩).2 = ⟨["grammar.json"], [], []⟩ ∧
    (loadGrammarFrom (fun p => p) "grammar.yaml" dupNewGrammar dupState).2 = dupState :=
  ⟨(spec_loadGrammarFrom_idempotent_per_path (fun p => p) "grammar.json" dupNewGrammar
      ⟨["grammar.json"], [], []⟩).1 (by decide) (by simp),
   (spec_loadGrammarFrom_idempotent_per_path (fun p => p) "grammar.yaml" dupNewGrammar
      dupState).2 (by decide)⟩

/-! ### Documents and the document cache -/

/-- Split a character list at every occurrence of `c` (JS
`aString.split(c)` semantics: no separator stripping beyond `c`, an empty
string yields `[""]`). -/
def splitCharList (c : Char) : List Char → List (List Char)
  | [] => [[]]
  | x :: rest =>
    match splitCharList c rest with
    | [] => [[]]
    | l :: ls => if x = c then [] :: l :: ls else (x :: l) :: ls

/-- `aDocStr.split('\n')`. -/
def jsSplitNewlines (s : String) : List String :=
  (splitCharList (Char.ofNat 10) s.data).map String.mk

/-- A cached document: file-system path, cache name, and lines. -/
structure Document where
  filePath : String
  docName  : String
  docLines : List String
deriving DecidableEq

/-- `refreshFromStr(aDocName, aDocStr)`: set the name and split the
contents into lines on `\n`. -/
def Document.refreshFromStr (aDocName aDocStr : String) (d : Document) : Document :=
  ⟨d.filePath, aDocName, jsSplitNewlines aDocStr⟩

/-- `Document.loadFromFile(aPath)` with the file-system read abstracted
into `fileContents`: normalize the path, then refresh from the string. -/
def Document.loadFromFile (normalizePath : String → String) (aPath fileContents : String) :
    Document :=
  Document.refreshFromStr aPath fileContents ⟨normalizePath aPath, "", []⟩

/-- A JavaScript `Map` object: the internal entry list (what `get`/`set`/
`has` see) is disjoint from the object's own enumerable properties (what
`Object.keys` sees); `Map.set` never creates own properties. -/
structure JSMap (α : Type) where
  entries  : List (String × α)
  ownProps : List String

def JSMap.empty (α : Type) : JSMap α := ⟨[], []⟩

/-- `aMap.get(k)`. -/
def JSMap.get {α : Type} (m : JSMap α) (k : String) : Option α := oget m.entries k

/-- `aMap.has(k)`. -/
def JSMap.has {α : Type} (m : JSMap α) (k : String) : Bool := (m.get k).isSome

/-- `aMap.set(k, v)`. -/
def JSMap.set {α : Type} (m : JSMap α) (k : String) (v : α) : JSMap α :=
  ⟨oset m.entries k v, m.ownProps⟩

/-- `Object.keys(x)`: the object's own enumerable properties. -/
def objectKeys {α : Type} (m : JSMap α) : List String := m.ownProps

/-- `DocumentCache.loadFromFile(aPath)`: build the document and register it
under `aPath`, unconditionally overwriting any previous entry. -/
def DocumentCache.loadFromFile (normalizePath : String → String) (aPath fileContents : String)
    (documents : JSMap Document) : JSMap Document × Document :=
  let doc := Document.loadFromFile normalizePath aPath fileContents
  (documents.set aPath doc, doc)

/-- `DocumentCache.loadFromStr(docName, docStr)`: build the document and
register it under `docName`, unconditionally overwriting. -/
def DocumentCache.loadFromStr (docName docStr : String)
    (documents : JSMap Document) : JSMap Document × Document :=
  let doc := Document.refreshFromStr docName docStr ⟨"", "", []⟩
  (documents.set docName doc, doc)

/-- `DocumentCache.getDocument(aPath)`. -/
def DocumentCache.getDocument (aPath : String) (documents : JSMap Document) : Option Document :=
  documents.get aPath

/-! ### The structure store -/

/-- `Structures.newStructure(key, value)`: registers the value only if the
key is not yet present (first registration wins) and returns the stored
structure. -/
def newStructure {α : Type} (aStructureKey : String) (aStructureValue : α)
    (structs : JSMap α) : JSMap α × Option α :=
  let structs' :=
    if structs.has aStructureKey then structs
    else structs.set aStructureKey aStructureValue
  (structs', structs'.get aStructureKey)

/-- `Structures.getStructure(key)`. -/
def getStructure {α : Type} (aStructureKey : String) (structs : JSMap α) : Option α :=
  structs.get aStructureKey

/-- `Structures.getStructureNames()`: `Object.keys` of the `structs` Map,
sorted.  A `Map`'s entries are internal slots, not own properties, so
`Object.keys` sees none of them. -/
def getStructureNames {α : Type} (structs : JSMap α) : List String :=
  sortStrings (objectKeys structs)

/-- Any sequence of `newStructure` registrations applied to the (empty)
initial store. -/
def applyNewStructures {α : Type} (ops : List (String × α)) (structs : JSMap α) : JSMap α :=
  ops.foldl (fun m kv => (newStructure kv.1 kv.2 m).1) structs

/-- C10.  The document cache's two loaders always overwrite the entry
registered under the same name (last registration wins) and `getDocument`
then returns the new document; by contrast `Structures.newStructure` keeps
the first registration when the key already exists. -/
theorem spec_documentCache_overwrites_structures_do_not :
    (∀ (normalizePath : String → String) (aPath fileContents : String)
       (documents : JSMap Document),
       DocumentCache.getDocument aPath
           (DocumentCache.loadFromFile normalizePath aPath fileContents documents).1 =
         some (DocumentCache.loadFromFile normalizePath aPath fileContents documents).2) ∧
    (∀ (docName docStr : String) (documents : JSMap Document),
       DocumentCache.getDocument docName
           (DocumentCache.loadFromStr docName docStr documents).1 =
         some (DocumentCache.loadFromStr docName docStr documents).2) ∧
    (∀ (α : Type) (structs : JSMap α) (k : String) (v : α),
       JSMap.has structs k = true →
       getStructure k (newStructure k v structs).1 = getStructure k structs) := by
  refine ⟨?_, ?_, ?_⟩
  · intro normalizePath aPath fileContents documents
    show oget (oset documents.entries aPath _) aPath = some _
    exact oget_oset_self _ _ _
  · intro docName docStr documents
    show oget (oset documents.entries docName _) docName = some _
    exact oget_oset_self _ _ _
  · intro α structs k v h
    unfold newStructure
    simp [h]

/-- Witness for C10 at a concrete cache state: the entry for `doc.tex` is
overwritten by both loaders, while `newStructure` keeps the first value. -/
theorem spec_documentCache_overwrites_structures_do_not_witness :
    DocumentCache.getDocument "doc.tex"
        (DocumentCache.loadFromFile (fun p => p) "doc.tex" "hello"
          ⟨[("doc.tex", ⟨"old", "old", []⟩)], []⟩).1 =
      some (DocumentCache.loadFromFile (fun p => p) "doc.tex" "hello"
          ⟨[("doc.tex", ⟨"old", "old", []⟩)], []⟩).2 ∧
    DocumentCache.getDocument "doc.tex"
        (DocumentCache.loadFromStr "doc.tex" "hello"
          ⟨[("doc.tex", ⟨"old", "old", []⟩)], []⟩).1 =
      some (DocumentCache.loadFromStr "doc.tex" "hello"
          ⟨[("doc.tex", ⟨"old", "old", []⟩)], []⟩).2 ∧
    getStructure "outline" (newStructure "outline" (2 : Nat) ⟨[("outline", 1)], []⟩).1 =
      getStructure "outline" (⟨[("outline", 1)], []⟩ : JSMap Nat) :=
  ⟨spec_documentCache_overwrites_structures_do_not.1 (fun p => p) "doc.tex" "hello" _,
   spec_documentCache_overwrites_structures_do_not.2.1 "doc.tex" "hello" _,
   spec_documentCache_overwrites_structures_do_not.2.2 Nat ⟨[("outline", 1)], []⟩
     "outline" 2 (by decide)⟩

/-! ### traceParseOf -/

/-- One token from the external tokenizer. -/
structure Token where
  startIndex : Nat
  endIndex   : Nat
  scopes     : List String

/-- One include/exclude regex-set filter (`config['traceLines']` etc.);
each regex is abstracted as its match predicate. -/
structure TraceOpts where
  excludeFilters : List (String → Bool)
  includeFilters : List (String → Bool)

/-- The tracing part of a tool configuration. -/
structure TraceConfig where
  trace           : Bool
  traceLines      : TraceOpts
  traceScopes     : TraceOpts
  traceActions    : TraceOpts
  traceStructures : TraceOpts

/-- `traceObj(traceOpts, aStr)`: with tracing off, always `false`; with
tracing on, any exclude match vetoes, then a non-empty include set requires
a match, and an empty include set accepts. -/
def traceObj (traceOutput : Bool) (traceOpts : TraceOpts) (aStr : String) : Bool :=
  if traceOutput then
    if traceOpts.excludeFilters.any (fun aRegExp => aRegExp aStr) then false
    else if 0 < traceOpts.includeFilters.length then
      traceOpts.includeFilters.any (fun aRegExp => aRegExp aStr)
    else true
  else false

/-- The diagnostic debug lines the per-line loop of `traceParseOf` can
emit. -/
inductive LogEvent where
  | tokenizingLine (lineNum : Nat) (aLine : String)
  | tokenSpan (startIndex endIndex : Nat) (text : String)
  | tokenScope (aScope : String)
  | actionBannerStart
  | scopeTokens (aScope : String) (someTokens : List String)
  | structureLog (aStructureName : String)
  | actionBannerEnd
deriving DecidableEq

/-- One action invocation `anAction.run(aScope, someTokens, lineNum, aDoc,
traceOutput)`; the document is identified by its cache name. -/
structure Invocation where
  actionName : String
  scope      : String
  someTokens : List String
  lineNum    : Nat
  docName    : String
  traceFlag  : Bool
deriving DecidableEq

/-- `aLine.substring(aToken.startIndex, aToken.endIndex)`. -/
def jsSubstring (s : String) (startIndex endIndex : Nat) : String :=
  String.mk ((s.data.drop startIndex).take (endIndex - startIndex))

/-- The inner loop over one token's scope stack: log each scope (gated by
the line and scope filters) and accumulate the token text into the
per-scope bucket when the scope has registered actions. -/
def processTokenScopes (traceOutput : Bool) (traceScopes : TraceOpts) (showLine : Bool)
    (scopesWithActions : JsObj (List String)) (tokText : String) :
    List String → JsObj (List String) → List LogEvent × JsObj (List String)
  | [], scopes2run => ([], scopes2run)
  | aScope :: restScopes, scopes2run =>
    let showScope := traceObj traceOutput traceScopes aScope
    let evs1 : List LogEvent :=
      if showLine && showScope then [.tokenScope aScope] else []
    let scopes2run' :=
      if (oget scopesWithActions aScope).isSome then
        oset scopes2run aScope ((oget scopes2run aScope).getD [] ++ [tokText])
      else scopes2run
    let step := processTokenScopes traceOutput traceScopes showLine scopesWithActions tokText
      restScopes scopes2run'
    (evs1 ++ step.1, step.2)

/-- The loop over one line's tokens. -/
def processTokens (traceOutput : Bool) (traceScopes : TraceOpts) (showLine : Bool)
    (scopesWithActions : JsObj (List String)) (aLine : String) :
    List Token → JsObj (List String) → List LogEvent × JsObj (List String)
  | [], scopes2run => ([], scopes2run)
  | aToken :: restTokens, scopes2run =>
    let tokText := jsSubstring aLine aToken.startIndex aToken.endIndex
    let evs1 : List LogEvent :=
      if showLine then [.tokenSpan aToken.startIndex aToken.endIndex tokText] else []
    let step1 := processTokenScopes traceOutput traceScopes showLine scopesWithActions tokText
      aToken.scopes scopes2run
    let step2 := processTokens traceOutput traceScopes showLine scopesWithActions aLine
      restTokens step1.2
    (evs1 ++ step1.1 ++ step2.1, step2.2)

/-- The dispatch loop over `Object.entries(scopes2run)`: banners and
structure dumps gated by the filters, and — unconditionally — one
invocation per registered action of the scope, in registration order. -/
def runScopeActions (traceOutput : Bool) (cfg : TraceConfig)
    (scopesWithActions : JsObj (List String)) (structureNames : List String)
    (docName : String) (lineNum : Nat) (showLine : Bool) :
    JsObj (List String) → List LogEvent × List Invocation
  | [] => ([], [])
  | (aScope, someTokens) :: rest =>
    let showScope := traceObj traceOutput cfg.traceScopes aScope
    let showAction := traceObj traceOutput cfg.traceActions aScope
    let headerEvs : List LogEvent :=
      if showLine && showScope && showAction then
        .actionBannerStart ::
          (if showLine && showScope then [.scopeTokens aScope someTokens] else [])
      else []
    let invs : List Invocation :=
      ((oget scopesWithActions aScope).getD []).map
        (fun anAction => ⟨anAction, aScope, someTokens, lineNum, docName, traceOutput⟩)
    let footerEvs : List LogEvent :=
      if showLine && showScope && showAction then
        (structureNames.filter
            (fun aStructureName => traceObj traceOutput cfg.traceStructures aStructureName)).map
          (fun aStructureName => LogEvent.structureLog aStructureName) ++ [.actionBannerEnd]
      else []
    let step := runScopeActions traceOutput cfg scopesWithActions structureNames docName
      lineNum showLine rest
    (headerEvs ++ footerEvs ++ step.1, invs ++ step.2)

/-- One iteration of `traceParseOf`'s per-line loop, given the tokens the
engine produced for the line. -/
def processLine (traceOutput : Bool) (cfg : TraceConfig)
    (scopesWithActions : JsObj (List String)) (structureNames : List String)
    (docName : String) (lineNum : Nat) (aLine : String) (tokens : List Token) :
    List LogEvent × List Invocation :=
  let showLine := traceObj traceOutput cfg.traceLines aLine
  let lineEvs : List LogEvent := if showLine then [.tokenizingLine lineNum aLine] else []
  let step1 := processTokens traceOutput cfg.traceScopes showLine scopesWithActions aLine
    tokens []
  let step2 := runScopeActions traceOutput cfg scopesWithActions structureNames docName
    lineNum showLine step1.2
  (lineEvs ++ step1.1 ++ step2.1, step2.2)

/-- The strictly sequential line loop, threading the tokenizer
continuation (`ruleStack`). -/
def traceLinesLoop {σ : Type} (tokenizeLine : String → σ → List Token × σ)
    (traceOutput : Bool) (cfg : TraceConfig) (scopesWithActions : JsObj (List String))
    (structureNames : List String) (docName : String) :
    List String → Nat → σ → List LogEvent × List Invocation
  | [], _, _ => ([], [])
  | aLine :: restLines, lineNum, ruleStack =>
    let lineTokens := tokenizeLine aLine ruleStack
    let step1 := processLine traceOutput cfg scopesWithActions structureNames docName
      lineNum aLine lineTokens.1
    let step2 := traceLinesLoop tokenizeLine traceOutput cfg scopesWithActions structureNames
      docName restLines (lineNum + 1) lineTokens.2
    (step1.1 ++ step2.1, step1.2 ++ step2.2)

/-- `traceParseOf(aDocPath, config)`: choose the base scope (abort silently
when none), then tokenize the document line by line, logging under the
filters and dispatching every registered action of every matched scope.
The external engine is abstracted as a per-base-scope line tokenizer. -/
def traceParseOf {σ : Type} (rmatch : String → String → Bool)
    (tokenizers : String → String → σ → List Token × σ) (initialRuleStack : σ)
    (s2g : JsObj Rule) (scopesWithActions : JsObj (List String))
    (structureNames : List String) (aDoc : Document) (cfg : TraceConfig) :
    List LogEvent × List Invocation :=
  let traceOutput := cfg.trace
  match chooseBaseScope rmatch s2g aDoc.filePath (aDoc.docLines.headD "") with
  | none => ([], [])
  | some aBaseScope =>
    traceLinesLoop (tokenizers aBaseScope) traceOutput cfg scopesWithActions structureNames
      aDoc.docName aDoc.docLines 0 initialRuleStack

theorem processTokenScopes_snd_filters (t1 t2 : Bool) (o1 o2 : TraceOpts) (sl1 sl2 : Bool)
    (scopesWithActions : JsObj (List String)) (tokText : String) :
    ∀ (scopes : List String) (scopes2run : JsObj (List String)),
    (processTokenScopes t1 o1 sl1 scopesWithActions tokText scopes scopes2run).2 =
    (processTokenScopes t2 o2 sl2 scopesWithActions tokText scopes scopes2run).2 := by
  intro scopes
  induction scopes with
  | nil => intro s2r; rfl
  | cons aScope rest ih =>
    intro s2r
    simp only [processTokenScopes]
    exact ih _

theorem processTokens_snd_filters (t1 t2 : Bool) (o1 o2 : TraceOpts) (sl1 sl2 : Bool)
    (scopesWithActions : JsObj (List String)) (aLine : String) :
    ∀ (tokens : List Token) (scopes2run : JsObj (List String)),
    (processTokens t1 o1 sl1 scopesWithActions aLine tokens scopes2run).2 =
    (processTokens t2 o2 sl2 scopesWithActions aLine tokens scopes2run).2 := by
  intro tokens
  induction tokens with
  | nil => intro s2r; rfl
  | cons aToken rest ih =>
    intro s2r
    simp only [processTokens]
    rw [processTokenScopes_snd_filters t1 t2 o1 o2 sl1 sl2]
    exact ih _

theorem runScopeActions_snd_filters (t : Bool) (cfg1 cfg2 : TraceConfig)
    (scopesWithActions : JsObj (List String)) (sns1 sns2 : List String)
    (docName : String) (lineNum : Nat) (sl1 sl2 : Bool) :
    ∀ scopes2run : JsObj (List String),
    (runScopeActions t cfg1 scopesWithActions sns1 docName lineNum sl1 scopes2run).2 =
    (runScopeActions t cfg2 scopesWithActions sns2 docName lineNum sl2 scopes2run).2 := by
  intro s2r
  induction s2r with
  | nil => rfl
  | cons kv rest ih =>
    obtain ⟨aScope, someTokens⟩ := kv
    simp only [runScopeActions]
    rw [ih]

theorem processLine_snd_filters (t : Bool) (cfg1 cfg2 : TraceConfig)
    (scopesWithActions : JsObj (List String)) (sns1 sns2 : List String)
    (docName : String) (lineNum : Nat) (aLine : String) (tokens : List Token) :
    (processLine t cfg1 scopesWithActions sns1 docName lineNum aLine tokens).2 =
    (processLine t cfg2 scopesWithActions sns2 docName lineNum aLine tokens).2 := by
  simp only [processLine]
  rw [processTokens_snd_filters t t cfg1.traceScopes cfg2.traceScopes
    (traceObj t cfg1.traceLines aLine) (traceObj t cfg2.traceLines aLine)
    scopesWithActions aLine tokens []]
  exact runScopeActions_snd_filters t cfg1 cfg2 scopesWithActions sns1 sns2 docName lineNum
    (traceObj t cfg1.traceLines aLine) (traceObj t cfg2.traceLines aLine) _

theorem traceLinesLoop_snd_filters {σ : Type} (tokenizeLine : String → σ → List Token × σ)
    (t : Bool) (cfg1 cfg2 : TraceConfig) (scopesWithActions : JsObj (List String))
    (sns1 sns2 : List String) (docName : String) :
    ∀ (docLines : List String) (lineNum : Nat) (ruleStack : σ),
    (traceLinesLoop tokenizeLine t cfg1 scopesWithActions sns1 docName docLines lineNum ruleStack).2 =
    (traceLinesLoop tokenizeLine t cfg2 scopesWithActions sns2 docName docLines lineNum ruleStack).2 := by
  intro docLines
  induction docLines with
  | nil => intro lineNum ruleStack; rfl
  | cons aLine restLines ih =>
    intro lineNum ruleStack
    simp only [traceLinesLoop]
    rw [processLine_snd_filters t cfg1 cfg2 scopesWithActions sns1 sns2, ih]

/-- C7.  With the document, grammars, registered actions, tokenizer and the
overall `trace` flag fixed, the invocation sequence of `traceParseOf` —
which action runs, in which order, with which scope, accumulated
substrings, line number, document, and trace flag — is identical for any
two choices of the `traceLines`/`traceScopes`/`traceActions`/
`traceStructures` include/exclude filter sets (and of the structure-name
list they gate): the filters gate only the diagnostic log. -/
theorem spec_traceParseOf_filters_gate_only_logs {σ : Type}
    (rmatch : String → String → Bool) (tokenizers : String → String → σ → List Token × σ)
    (initialRuleStack : σ) (s2g : JsObj Rule) (scopesWithActions : JsObj (List String))
    (sns1 sns2 : List String) (aDoc : Document) (traceFlag : Bool)
    (fl1 fs1 fa1 fst1 fl2 fs2 fa2 fst2 : TraceOpts) :
    (traceParseOf rmatch tokenizers initialRuleStack s2g scopesWithActions sns1 aDoc
      ⟨traceFlag, fl1, fs1, fa1, fst1⟩).2 =
    (traceParseOf rmatch tokenizers initialRuleStack s2g scopesWithActions sns2 aDoc
      ⟨traceFlag, fl2, fs2, fa2, fst2⟩).2 := by
  unfold traceParseOf
  cases chooseBaseScope rmatch s2g aDoc.filePath (aDoc.docLines.headD "") with
  | none => rfl
  | some aBaseScope =>
    exact traceLinesLoop_snd_filters (tokenizers aBaseScope) traceFlag _ _
      scopesWithActions sns1 sns2 aDoc.docName aDoc.docLines 0 initialRuleStack

/-- Recognize the named-structure dump among the log events. -/
def isStructureLogEvent : LogEvent → Bool
  | .structureLog _ => true
  | _ => false

theorem ownProps_newStructure {α : Type} (k : String) (v : α) (m : JSMap α) :
    (newStructure k v m).1.ownProps = m.ownProps := by
  unfold newStructure
  by_cases h : m.has k
  · simp [h]
  · simp [h, JSMap.set]

theorem ownProps_applyNewStructures {α : Type} (ops : List (String × α)) :
    ∀ m : JSMap α, (applyNewStructures ops m).ownProps = m.ownProps := by
  induction ops with
  | nil => intro m; rfl
  | cons kv rest ih =>
    intro m
    show (applyNewStructures rest (newStructure kv.1 kv.2 m).1).ownProps = m.ownProps
    rw [ih, ownProps_newStructure]

theorem filter_structLog_processTokenScopes (t : Bool) (o : TraceOpts) (sl : Bool)
    (swa : JsObj (List String)) (txt : String) :
    ∀ (scopes : List String) (s2r : JsObj (List String)),
    ((processTokenScopes t o sl swa txt scopes s2r).1).filter isStructureLogEvent = [] := by
  intro scopes
  induction scopes with
  | nil => intro s2r; rfl
  | cons aScope rest ih =>
    intro s2r
    simp only [processTokenScopes, List.filter_append]
    rw [ih]
    split <;> simp [isStructureLogEvent]

theorem filter_structLog_processTokens (t : Bool) (o : TraceOpts) (sl : Bool)
    (swa : JsObj (List String)) (aLine : String) :
    ∀ (tokens : List Token) (s2r : JsObj (List String)),
    ((processTokens t o sl swa aLine tokens s2r).1).filter isStructureLogEvent = [] := by
  intro tokens
  induction tokens with
  | nil => intro s2r; rfl
  | cons aToken rest ih =>
    intro s2r
    simp only [processTokens, List.filter_append]
    rw [ih, filter_structLog_processTokenScopes]
    split <;> simp [isStructureLogEvent]

theorem filter_structLog_runScopeActions (t : Bool) (cfg : TraceConfig)
    (swa : JsObj (List String)) (docName : String) (lineNum : Nat) (sl : Bool) :
    ∀ s2r : JsObj (List String),
    ((runScopeActions t cfg swa [] docName lineNum sl s2r).1).filter isStructureLogEvent = [] := by
  intro s2r
  induction s2r with
  | nil => rfl
  | cons kv rest ih =>
    obtain ⟨aScope, someTokens⟩ := kv
    simp only [runScopeActions, List.filter_append]
    rw [ih]
    by_cases h1 : (sl && traceObj t cfg.traceScopes aScope && traceObj t cfg.traceActions aScope) = true
    · by_cases h2 : (sl && traceObj t cfg.traceScopes aScope) = true
      · rw [if_pos h1, if_pos h1, if_pos h2]
        rfl
      · rw [if_pos h1, if_pos h1, if_neg h2]
        rfl
    · rw [if_neg h1, if_neg h1]
      rfl

theorem filter_structLog_processLine (t : Bool) (cfg : TraceConfig)
    (swa : JsObj (List String)) (docName : String) (lineNum : Nat) (aLine : String)
    (tokens : List Token) :
    ((processLine t cfg swa [] docName lineNum aLine tokens).1).filter isStructureLogEvent = [] := by
  simp only [processLine, List.filter_append]
  rw [filter_structLog_processTokens, filter_structLog_runScopeActions]
  split <;> simp [isStructureLogEvent]

theorem filter_structLog_traceLinesLoop {σ : Type} (tokenizeLine : String → σ → List Token × σ)
    (t : Bool) (cfg : TraceConfig) (swa : JsObj (List String)) (docName : String) :
    ∀ (docLines : List String) (lineNum : Nat) (ruleStack : σ),
    ((traceLinesLoop tokenizeLine t cfg swa [] docName docLines lineNum ruleStack).1).filter
      isStructureLogEvent = [] := by
  intro docLines
  induction docLines with
  | nil => intro lineNum ruleStack; rfl
  | cons aLine restLines ih =>
    intro lineNum ruleStack
    simp only [traceLinesLoop, List.filter_append]
    rw [ih, filter_structLog_processLine]
    rfl

/-- C8.  `Structures.getStructureNames()` applies `Object.keys` to the
`structs` Map object, whose entries live in internal slots rather than own
enumerable properties, so for every store state reachable by
`newStructure` registrations it returns the empty array; consequently the
named-structure trace output inside `traceParseOf` is never emitted. -/
theorem spec_getStructureNames_always_empty :
    (∀ (α : Type) (ops : List (String × α)),
       getStructureNames (applyNewStructures ops (JSMap.empty α)) = []) ∧
    (∀ (σ : Type) (rmatch : String → String → Bool)
       (tokenizers : String → String → σ → List Token × σ) (initialRuleStack : σ)
       (s2g : JsObj Rule) (scopesWithActions : JsObj (List String))
       (α : Type) (ops : List (String × α)) (aDoc : Document) (cfg : TraceConfig),
       ((traceParseOf rmatch tokenizers initialRuleStack s2g scopesWithActions
           (getStructureNames (applyNewStructures ops (JSMap.empty α))) aDoc cfg).1).filter
         isStructureLogEvent = []) := by
  have hempty : ∀ (α : Type) (ops : List (String × α)),
      getStructureNames (applyNewStructures ops (JSMap.empty α)) = [] := by
    intro α ops
    unfold getStructureNames objectKeys
    rw [ownProps_applyNewStructures]
    rfl
  refine ⟨hempty, ?_⟩
  intro σ rmatch tokenizers initialRuleStack s2g scopesWithActions α ops aDoc cfg
  rw [hempty]
  unfold traceParseOf
  cases chooseBaseScope rmatch s2g aDoc.filePath (aDoc.docLines.headD "") with
  | none => rfl
  | some aBaseScope =>
    exact filter_structLog_traceLinesLoop (tokenizers aBaseScope) cfg.trace cfg
      scopesWithActions aDoc.docName aDoc.docLines 0 initialRuleStack

/-! ### runTMGTool and the three-phase action protocol -/

/-- The three phases of a run (the `initialize` phase is named `init` here
because `initialize` is reserved in Lean). -/
inductive TMGPhase where
  | init
  | run
  | finalize
deriving DecidableEq

/-- One observable step of one action's execution; cooperative scheduling
interleaves whole steps. -/
structure PhaseStep where
  phase      : TMGPhase
  actionName : String
  step       : Nat
deriving DecidableEq

/-- A registered action: its phase (from the phase-qualified name, e.g.
`run.someScope`), its name, and how many steps its handler takes. -/
structure TMGAction where
  phase : TMGPhase
  name  : String
  steps : Nat

/-- The step sequence one action contributes when it runs to
completion. -/
def actionTrace (a : TMGAction) : List PhaseStep :=
  (List.range a.steps).map (fun i => ⟨a.phase, a.name, i⟩)

/-- The actions resolved for a phase prefix, in registration order. -/
def resolvePhaseActions (acts : List TMGAction) (p : TMGPhase) : List TMGAction :=
  acts.filter (fun a => a.phase == p)

/-- `Shuffle ls t`: `t` is an interleaving of the sequences `ls`, each kept
in order — the observable traces of cooperatively scheduled concurrent
tasks that all run to completion. -/
inductive Shuffle {α : Type} : List (List α) → List α → Prop where
  | nil : ∀ {ls : List (List α)}, (∀ l ∈ ls, l = []) → Shuffle ls []
  | cons : ∀ {ls : List (List α)} {i : Nat} {y : α} {l t : List α},
      ls.get? i = some (y :: l) → Shuffle (ls.set i l) t → Shuffle ls (y :: t)

theorem Shuffle.mem_source {α : Type} {ls : List (List α)} {t : List α}
    (h : Shuffle ls t) : ∀ x ∈ t, ∃ l ∈ ls, x ∈ l := by
  induction h with
  | nil _ => intro x hx; simp at hx
  | cons hget _ ih =>
    intro x hx
    rcases List.mem_cons.mp hx with rfl | hx
    · exact ⟨_, List.get?_mem hget, List.mem_cons_self _ _⟩
    · obtain ⟨l', hl', hx'⟩ := ih x hx
      rcases List.mem_or_eq_of_mem_set hl' with h' | rfl
      · exact ⟨l', h', hx'⟩
      · exact ⟨_, List.get?_mem hget, List.mem_cons_of_mem _ hx'⟩

/-- Modelled from the spec: `ScopeActions.runActionsStartingWith`
(the ScopeActions module is not among the sources).  The registered
actions whose phase-qualified name starts with the given phase prefix are
resolved in registration order; if `parallel` is set they are all started
concurrently and the phase is not complete until every one has settled, so
the observable phase traces are exactly the interleavings of the actions'
step sequences; otherwise they run strictly in registration order, giving
the concatenation. -/
def phaseTrace (acts : List TMGAction) (parallel : Bool) (p : TMGPhase)
    (t : List PhaseStep) : Prop :=
  if parallel then Shuffle ((resolvePhaseActions acts p).map actionTrace) t
  else t = ((resolvePhaseActions acts p).map actionTrace).join

/-- The runner configuration fields `runTMGTool` reads. -/
structure RunnerConfig where
  initialFiles : List String
  parallel     : Bool

/-- `runTMGTool(config)`: exits immediately (running no actions) when no
initial document is given; otherwise it awaits the `initialize` actions,
then the `run` actions, then the `finalize` actions — each `await`
sequences the complete settlement of one phase before the next phase's
trace begins. -/
def runTMGToolTrace (config : RunnerConfig) (acts : List TMGAction)
    (t : List PhaseStep) : Prop :=
  if config.initialFiles.length < 1 then t = []
  else ∃ t1 t2 t3,
    phaseTrace acts config.parallel .init t1 ∧
    phaseTrace acts config.parallel .run t2 ∧
    phaseTrace acts config.parallel .finalize t3 ∧
    t = t1 ++ t2 ++ t3

theorem mem_resolved_actionTrace_phase {acts : List TMGAction} {p : TMGPhase}
    {e : PhaseStep} {l : List PhaseStep}
    (hl : l ∈ (resolvePhaseActions acts p).map actionTrace) (he : e ∈ l) :
    e.phase = p := by
  rcases List.mem_map.mp hl with ⟨a, ha, rfl⟩
  have hp : a.phase = p := by
    have := List.of_mem_filter ha
    simpa using this
  rcases List.mem_map.mp he with ⟨i, _, rfl⟩
  exact hp

theorem phaseTrace_mem_phase {acts : List TMGAction} {parallel : Bool} {p : TMGPhase}
    {t : List PhaseStep} (h : phaseTrace acts parallel p t) :
    ∀ e ∈ t, e.phase = p := by
  intro e he
  unfold phaseTrace at h
  cases parallel with
  | true =>
    rw [if_pos rfl] at h
    obtain ⟨l, hl, hel⟩ := h.mem_source e he
    exact mem_resolved_actionTrace_phase hl hel
  | false =>
    rw [if_neg (by simp)] at h
    subst h
    obtain ⟨l, hl, hel⟩ := List.mem_join.mp he
    exact mem_resolved_actionTrace_phase hl hel

theorem get?_append_cases {α : Type} (l1 l2 : List α) (i : Nat) (x : α)
    (h : (l1 ++ l2).get? i = some x) : (i < l1.length ∧ x ∈ l1) ∨ l1.length ≤ i := by
  by_cases hi : i < l1.length
  · rw [List.get?_append hi] at h
    exact Or.inl ⟨hi, List.get?_mem h⟩
  · exact Or.inr (by omega)

/-- C5.  `runTMGTool` runs the three phases strictly in the order
`initialize`, `run`, `finalize`, with an absolute barrier: in every
possible trace, every step of every `run` action comes after every step
(hence after the settlement) of every `initialize` action, and likewise
for `finalize` after `run` — whether dispatch is parallel or
sequential. -/
theorem spec_runTMGTool_phase_barrier (config : RunnerConfig) (acts : List TMGAction)
    (t : List PhaseStep) (ht : runTMGToolTrace config acts t) :
    (∀ i j ei ej, t.get? i = some ei → t.get? j = some ej →
       ei.phase = .init → ej.phase = .run → i < j) ∧
    (∀ i j ei ej, t.get? i = some ei → t.get? j = some ej →
       ei.phase = .run → ej.phase = .finalize → i < j) := by
  unfold runTMGToolTrace at ht
  by_cases hinit : config.initialFiles.length < 1
  · rw [if_pos hinit] at ht
    subst ht
    constructor <;> (intro i j ei ej hgi hgj _ _; simp at hgi)
  · rw [if_neg hinit] at ht
    obtain ⟨t1, t2, t3, h1, h2, h3, rfl⟩ := ht
    have p1 := phaseTrace_mem_phase h1
    have p2 := phaseTrace_mem_phase h2
    have p3 := phaseTrace_mem_phase h3
    constructor
    · intro i j ei ej hgi hgj hei hej
      rw [List.append_assoc] at hgi hgj
      have hi : i < t1.length := by
        rcases get?_append_cases t1 (t2 ++ t3) i ei hgi with ⟨hlt, _⟩ | hge
        · exact hlt
        · exfalso
          rw [List.get?_append_right hge] at hgi
          rcases get?_append_cases t2 t3 _ ei hgi with ⟨_, hmem⟩ | hge2
          · rw [p2 ei hmem] at hei
            exact TMGPhase.noConfusion hei
          · rw [List.get?_append_right hge2] at hgi
            have hmem := List.get?_mem hgi
            rw [p3 ei hmem] at hei
            exact TMGPhase.noConfusion hei
      have hj : t1.length ≤ j := by
        by_contra hlt
        push_neg at hlt
        rw [List.get?_append hlt] at hgj
        have hmem := List.get?_mem hgj
        rw [p1 ej hmem] at hej
        exact TMGPhase.noConfusion hej
      omega
    · intro i j ei ej hgi hgj hei hej
      rw [List.append_assoc] at hgi hgj
      have hi : i < t1.length + t2.length := by
        by_contra hge
        push_neg at hge
        have hge1 : t1.length ≤ i := by omega
        rw [List.get?_append_right hge1] at hgi
        have hge2 : t2.length ≤ i - t1.length := by omega
        rw [List.get?_append_right hge2] at hgi
        have hmem := List.get?_mem hgi
        rw [p3 ei hmem] at hei
        exact TMGPhase.noConfusion hei
      have hj : t1.length + t2.length ≤ j := by
        by_contra hlt
        push_neg at hlt
        rcases get?_append_cases t1 (t2 ++ t3) j ej hgj with ⟨_, hmem⟩ | hge
        · rw [p1 ej hmem] at hej
          exact TMGPhase.noConfusion hej
        · rw [List.get?_append_right hge] at hgj
          have hlt2 : j - t1.length < t2.length := by omega
          rw [List.get?_append hlt2] at hgj
          have hmem := List.get?_mem hgj
          rw [p2 ej hmem] at hej
          exact TMGPhase.noConfusion hej
      omega

/-- The two registered actions of the witness run: one `initialize`-phase
action and one `run`-phase action, one step each. -/
def witnessActions : List TMGAction :=
  [⟨.init, "initialize.load", 1⟩, ⟨.run, "run.trace", 1⟩]

/-- Witness for C5: the sequential-dispatch trace of the two witness
actions satisfies `runTMGToolTrace`, and the theorem places the
`initialize` step (index 0) strictly before the `run` step (index 1). -/
theorem spec_runTMGTool_phase_barrier_witness :
    runTMGToolTrace ⟨["doc.tex"], false⟩ witnessActions
      [⟨.init, "initialize.load", 0⟩, ⟨.run, "run.trace", 0⟩] ∧ (0 : Nat) < 1 := by
  have ht : runTMGToolTrace ⟨["doc.tex"], false⟩ witnessActions
      [⟨.init, "initialize.load", 0⟩, ⟨.run, "run.trace", 0⟩] := by
    unfold runTMGToolTrace
    rw [if_neg (by decide)]
    exact ⟨[⟨.init, "initialize.load", 0⟩], [⟨.run, "run.trace", 0⟩], [], rfl, rfl, rfl, rfl⟩
  exact ⟨ht,
    (spec_runTMGTool_phase_barrier ⟨["doc.tex"], false⟩ witnessActions _ ht).1
      0 1 ⟨.init, "initialize.load", 0⟩ ⟨.run, "run.trace", 0⟩ rfl rfl rfl rfl⟩
